import Mathlib

/-!
# Schedule timeline compaction (`cmd/schedules.go`)

A shallow embedding of `collectPeriods`, `getScheduleTimeline` and the
`scheduleInterval` flag value of the `cmd` package, followed by the properties
proved about them.

Modelling conventions:

* `time.Time` values are only copied by the code, never compared or
  subtracted; they are embedded as integers (an instant on a time line), so
  that order, ranges and durations can be stated.
* Go slices are lists; `append` is `++ [x]`, an index expression is a lookup
  that can fail, and a failed lookup is the run-time panic
  `index out of range`, embedded as `none`.
* Go strings are Lean strings; where the code looks inside a string (the
  flag value of `scheduleInterval`) its list of characters is used.
-/

namespace Cmd

/-! ## Data model -/

/-- Instants of `time.Time`, embedded as integers. -/
abbrev Time := Int

/-- The struct `identifier` of `schedules.go`. -/
structure identifier where
  Name : String
  ID : String
  deriving DecidableEq

/-- The struct `period` of `schedules.go`. -/
structure period where
  StartDate : Time
  EndDate : Time
  OnCallee : identifier
  deriving DecidableEq

/-- The fields of the SDK type `schedule.Recipient` read by the code. -/
structure Recipient where
  Id : String
  Name : String
  deriving DecidableEq

/-- The fields of the SDK type `schedule.Period` read by the code. -/
structure Period where
  StartDate : Time
  EndDate : Time
  Recipient : Recipient
  deriving DecidableEq

/-- The fields of the SDK type `schedule.TimelineRotation` read by the code. -/
structure TimelineRotation where
  Id : String
  Name : String
  Periods : List Period
  deriving DecidableEq

/-! ## `collectPeriods` -/

/-- The value `current` built at the top of the loop body of `collectPeriods`
(lines 128-132). -/
def current (p : Period) : period :=
  { StartDate := p.StartDate
    EndDate := p.EndDate
    OnCallee := { Name := p.Recipient.Name, ID := p.Recipient.Id } }

/-- One iteration of the loop of `collectPeriods` (lines 127-144) at index `i`
with range value `p`, on the slice `periods` built so far.  `none` is the
panic of the index expression `periods[len(periods)-1]` on an empty slice. -/
def collectStep (i : Nat) (p : Period) (periods : List period) : Option (List period) :=
  if i = 0 then
    some (periods ++ [current p])
  else
    match periods[periods.length - 1]? with
    | none => none
    | some prev =>
      if prev.OnCallee = (current p).OnCallee then
        some (periods.set (periods.length - 1) { prev with EndDate := (current p).EndDate })
      else
        some (periods ++ [current p])

/-- The loop `for i, p := range rot.Periods` from index `i` on, over the
remaining records. -/
def collectLoop : Nat → List Period → List period → Option (List period)
  | _, [], periods => some periods
  | i, p :: rest, periods =>
    match collectStep i p periods with
    | none => none
    | some periods1 => collectLoop (i + 1) rest periods1

/-- The function `collectPeriods` (lines 125-146): the loop started at index 0
on the nil slice. -/
def collectPeriods (rot : TimelineRotation) : Option (List period) :=
  collectLoop 0 rot.Periods []

/-! ## `getScheduleTimeline` -/

/-- The field of the SDK type `schedule.Timeline` read by the code. -/
structure Timeline where
  Rotations : List TimelineRotation
  deriving DecidableEq

/-- The field of the SDK type `schedule.TimelineResult` read by the code. -/
structure TimelineResult where
  FinalTimeline : Timeline
  deriving DecidableEq

/-- The Go map `map[identifier][]period`: a list of entries with at most one
entry per key.  The order of the entries is not observable in Go. -/
abbrev RotationPeriods := List (identifier × List period)

/-- The assignment `m[k] = v`: replaces the value of an existing key, adds the
entry otherwise. -/
def mapAssign : RotationPeriods → identifier → List period → RotationPeriods
  | [], k, v => [(k, v)]
  | (k1, v1) :: m, k, v => if k1 = k then (k, v) :: m else (k1, v1) :: mapAssign m k v

/-- The index expression `m[k]` with its presence flag. -/
def mapIndex : RotationPeriods → identifier → Option (List period)
  | [], _ => none
  | (k1, v1) :: m, k => if k1 = k then some v1 else mapIndex m k

/-- The keys of the map. -/
def mapKeys (m : RotationPeriods) : List identifier :=
  m.map Prod.fst

/-- The key `id` built for a rotation (line 119). -/
def rotationId (rot : TimelineRotation) : identifier :=
  { Name := rot.Name, ID := rot.Id }

/-- The loop over `timeline.FinalTimeline.Rotations` (lines 118-121); `none`
is a panic of `collectPeriods`. -/
def timelineLoop : List TimelineRotation → RotationPeriods → Option RotationPeriods
  | [], m => some m
  | rot :: rest, m =>
    match collectPeriods rot with
    | none => none
    | some periods => timelineLoop rest (mapAssign m (rotationId rot) periods)

/-- The error returned by `getScheduleTimeline`: the wrapped error of the API
call together with the schedule name it is formatted with. -/
structure TimelineError where
  scheduleName : String
  cause : String
  deriving DecidableEq

/-- The function `getScheduleTimeline` (lines 106-123).  The call
`schedAPI.GetTimeline` is outside the repository; its outcome `fetched` is a
parameter.  `none` is a panic. -/
def getScheduleTimeline (fetched : Except String TimelineResult) (scheduleName : String) :
    Option (Except TimelineError RotationPeriods) :=
  match fetched with
  | .error err => some (.error { scheduleName := scheduleName, cause := err })
  | .ok timeline =>
    match timelineLoop timeline.FinalTimeline.Rotations [] with
    | none => none
    | some rotationPeriods => some (.ok rotationPeriods)

/-! ## `scheduleInterval` -/

/-- The struct `scheduleInterval`; `schedule.Unit` is a string type. -/
structure scheduleInterval where
  unit : String
  value : Int
  deriving DecidableEq

/-- The values of Go's `int` on a 64-bit platform. -/
def isGoInt (v : Int) : Prop :=
  -(2 ^ 63) ≤ v ∧ v < 2 ^ 63

/-- The verb `%d` of `fmt.Sprintf` on an `int`: decimal digits without leading
zeros, preceded by `-` for a negative value. -/
def formatInt (v : Int) : List Char :=
  if v < 0 then '-' :: Nat.toDigits 10 v.natAbs else Nat.toDigits 10 v.natAbs

/-- The alternation `days|weeks|months` at the start of `s`, alternatives tried
from left to right. -/
def matchUnit (s : List Char) : Option (List Char) :=
  if "days".data.isPrefixOf s then some "days".data
  else if "weeks".data.isPrefixOf s then some "weeks".data
  else if "months".data.isPrefixOf s then some "months".data
  else none

/-- The pattern `(\d+)(days|weeks|months)` at the start of `s` with `\d+` taking
`k` digits, then `k - 1`, down to one digit (greedy repetition with
backtracking).  The result is the text of the two groups. -/
def matchDigits : Nat → List Char → Option (List Char × List Char)
  | 0, _ => none
  | k + 1, s =>
    match matchUnit (s.drop (k + 1)) with
    | some u => some (s.take (k + 1), u)
    | none => matchDigits k s

/-- The pattern at the start of `s`: `\d` is an ASCII digit. -/
def matchHere (s : List Char) : Option (List Char × List Char) :=
  matchDigits (s.takeWhile Char.isDigit).length s

/-- The call `scheduleIntervalRegexp.FindStringSubmatch` (line 171) for the
pattern of line 159: the leftmost match, as the matched text followed by the
text of the two groups; the nil slice (here `[]`) when nothing matches. -/
def scheduleIntervalRegexp.FindStringSubmatch : List Char → List (List Char)
  | [] => []
  | c :: s =>
    match matchHere (c :: s) with
    | some (digits, u) => [digits ++ u, digits, u]
    | none => scheduleIntervalRegexp.FindStringSubmatch s

/-- The value of a string of decimal digits. -/
def digitsValue (s : List Char) : Nat :=
  s.foldl (fun n ch => n * 10 + (ch.toNat - '0'.toNat)) 0

/-- The function `strconv.Atoi` on a 64-bit platform: an optional sign followed
by at least one decimal digit, with a value in the range of `int`. -/
def Atoi (s : List Char) : Except String Int :=
  let body := match s with
    | '-' :: t => t
    | '+' :: t => t
    | t => t
  if body = [] ∨ ¬ body.all Char.isDigit then .error "invalid syntax"
  else
    let v : Int := if s.head? = some '-' then -(digitsValue body : Int) else digitsValue body
    if v < -(2 ^ 63) ∨ 2 ^ 63 ≤ v then .error "value out of range" else .ok v

/-- The method `Set` (lines 170-182) on the receiver `s`: the receiver after
the call when the returned error is nil, the error otherwise (the receiver is
then unchanged). -/
def scheduleInterval.Set (s : scheduleInterval) (value : String) : Except String scheduleInterval :=
  let matches1 := scheduleIntervalRegexp.FindStringSubmatch value.data
  if matches1.length ≠ 3 then .error "value does not comply with regexp"
  else
    match Atoi (matches1.getD 1 []) with
    | .error err => .error ("error parsing interval value: " ++ err)
    | .ok val => .ok { s with value := val, unit := String.mk (matches1.getD 2 []) }

/-- The method `String` (lines 166-168): `fmt.Sprintf("%d%s", s.value, s.unit)`. -/
def scheduleInterval.String (s : scheduleInterval) : String :=
  String.mk (formatInt s.value ++ s.unit.data)

/-- The variable `scheduleTimelineInterval` (line 65): 14 days. -/
def scheduleTimelineInterval : scheduleInterval :=
  { unit := "days", value := 14 }

/-! ## Notions used to state the properties -/

/-- The input records of a rotation as the code reads them: each SDK period
translated to a `period` (the value `current`). -/
def records (rot : TimelineRotation) : List period :=
  rot.Periods.map current

/-- The maximal runs of consecutive records with equal `OnCallee`, in order:
a record joins the run that follows it exactly when its `OnCallee` is that of
the run's first record, and otherwise is a run of its own. -/
def runs : List period → List (List period)
  | [] => []
  | p :: rest =>
    match runs rest with
    | [] => [[p]]
    | [] :: rs => [p] :: rs
    | (q :: r) :: rs =>
      if p.OnCallee = q.OnCallee then (p :: q :: r) :: rs else [p] :: (q :: r) :: rs

/-- The period `o` stands for the run `r`: it starts where the first record of
the run starts, ends where its last record ends, and has the on-callee of the
records of the run. -/
def IsPeriodOfRun (r : List period) (o : period) : Prop :=
  ∃ first last, r.head? = some first ∧ r.getLast? = some last ∧
    o.StartDate = first.StartDate ∧ o.EndDate = last.EndDate ∧
    ∀ x ∈ r, x.OnCallee = o.OnCallee

/-- An on-call recipient used in the examples. -/
def recipientA : Recipient :=
  { Id := "a1", Name := "A" }

/-- A second on-call recipient used in the examples. -/
def recipientB : Recipient :=
  { Id := "b2", Name := "B" }

/-- The on-callee of `recipientA`. -/
def calleeA : identifier :=
  { Name := "A", ID := "a1" }

/-- The on-callee of `recipientB`. -/
def calleeB : identifier :=
  { Name := "B", ID := "b2" }

/-- A rotation with the given SDK periods. -/
def rotationOf (periods : List Period) : TimelineRotation :=
  { Id := "r1", Name := "rota", Periods := periods }

/-- Two adjacent periods have different on-callees. -/
def Distinct (a b : period) : Prop :=
  a.OnCallee ≠ b.OnCallee


/-- The union of the half-open ranges `[StartDate, EndDate)` of the periods. -/
def coverage (l : List period) : Set Time :=
  {t | ∃ p ∈ l, p.StartDate ≤ t ∧ t < p.EndDate}

/-- The record `b` continues the on-call time of its predecessor `a` when it
has the same on-callee: it starts within `a` (no earlier than `a` starts, no
later than `a` ends) and ends no earlier than `a` ends. -/
def Continues (a b : period) : Prop :=
  a.OnCallee = b.OnCallee →
    a.StartDate ≤ b.StartDate ∧ b.StartDate ≤ a.EndDate ∧ a.EndDate ≤ b.EndDate

/-- The sum of `EndDate - StartDate` over the periods. -/
def totalDuration (l : List period) : Int :=
  (l.map (fun p => p.EndDate - p.StartDate)).sum

/-- The number of indices `i ≥ 1` whose record has an `OnCallee` that differs
from the one of record `i - 1` in `Name` or in `ID`: the pairs of
`l.zip l.tail` are the pairs (record `i - 1`, record `i`). -/
def changes (l : List period) : Nat :=
  (l.zip l.tail).countP
    (fun ab => decide (ab.1.OnCallee.Name ≠ ab.2.OnCallee.Name ∨ ab.1.OnCallee.ID ≠ ab.2.OnCallee.ID))

/-! ## A closed form of the loop

`mergeFrom last rest` is what the loop leaves behind the already finished
periods when `last` is the last period of the slice and `rest` are the records
still to be read; `compact` is the whole loop on the translated records.  Both
are proved equal to the loop below (`collectLoop_succ`, `collectPeriods_eq`)
and are only used to reason about it. -/

/-- The tail of the slice produced by the loop from a last period `last` and
the remaining translated records. -/
def mergeFrom (last : period) : List period → List period
  | [] => [last]
  | c :: rest =>
    if last.OnCallee = c.OnCallee then mergeFrom { last with EndDate := c.EndDate } rest
    else last :: mergeFrom c rest

/-- The loop as a function of the translated records. -/
def compact : List period → List period
  | [] => []
  | c :: rest => mergeFrom c rest

/-! # Theorems -/

theorem collectStep_zero (p : Period) (periods : List period) :
    collectStep 0 p periods = some (periods ++ [current p]) := by
  simp [collectStep]

theorem collectStep_succ (i : Nat) (p : Period) (init : List period) (last : period) :
    collectStep (i + 1) p (init ++ [last]) =
      if last.OnCallee = (current p).OnCallee then
        some (init ++ [{ last with EndDate := (current p).EndDate }])
      else some (init ++ [last] ++ [current p]) := by
  have hget : (init ++ [last])[(init ++ [last]).length - 1]? = some last := by
    simp
  have hset : ∀ x : period, (init ++ [last]).set ((init ++ [last]).length - 1) x
      = init ++ [x] := by
    intro x
    simp [List.set_append]
  unfold collectStep
  rw [if_neg (Nat.succ_ne_zero i), hget]
  simp only [hset]

theorem collectLoop_succ (rest : List Period) :
    ∀ (i : Nat) (init : List period) (last : period),
      collectLoop (i + 1) rest (init ++ [last])
        = some (init ++ mergeFrom last (rest.map current)) := by
  induction rest with
  | nil => intro i init last; simp [collectLoop, mergeFrom]
  | cons p rest ih =>
    intro i init last
    simp only [collectLoop, collectStep_succ, List.map_cons, mergeFrom]
    by_cases h : last.OnCallee = (current p).OnCallee
    · simp only [if_pos h]
      exact ih (i + 1) init _
    · simp only [if_neg h]
      rw [ih (i + 1) (init ++ [last]) (current p)]
      simp

theorem collectLoop_zero (recs : List Period) :
    collectLoop 0 recs [] = some (compact (recs.map current)) := by
  cases recs with
  | nil => rfl
  | cons p rest =>
    simp only [collectLoop, collectStep_zero, List.map_cons, compact]
    have := collectLoop_succ rest 0 [] (current p)
    simpa using this

theorem collectPeriods_eq (rot : TimelineRotation) :
    collectPeriods rot = some (compact (rot.Periods.map current)) :=
  collectLoop_zero rot.Periods

/-! ## Shape of `mergeFrom` -/

theorem mergeFrom_shape (rest : List period) :
    ∀ a b : period, ∃ e out,
      mergeFrom a rest = { a with EndDate := e } :: out ∧
      (a.OnCallee = b.OnCallee → a.EndDate = b.EndDate →
        mergeFrom b rest = { b with EndDate := e } :: out) := by
  induction rest with
  | nil =>
    intro a b
    exact ⟨a.EndDate, [], rfl, fun _ he => by
      simp [mergeFrom, he]⟩
  | cons c rest ih =>
    intro a b
    by_cases h : a.OnCallee = c.OnCallee
    · obtain ⟨e, out, h1, h2⟩ := ih { a with EndDate := c.EndDate } { b with EndDate := c.EndDate }
      refine ⟨e, out, ?_, ?_⟩
      · simp only [mergeFrom, if_pos h]; exact h1
      · intro hab _
        have hb : b.OnCallee = c.OnCallee := hab ▸ h
        simp only [mergeFrom, if_pos hb]
        exact h2 hab rfl
    · refine ⟨a.EndDate, mergeFrom c rest, ?_, ?_⟩
      · simp only [mergeFrom, if_neg h]
      · intro hab he
        have hb : ¬ b.OnCallee = c.OnCallee := hab ▸ h
        simp only [mergeFrom, if_neg hb]
        simp [he]

theorem mergeFrom_head (last : period) (rest : List period) :
    ∃ e out, mergeFrom last rest = { last with EndDate := e } :: out := by
  obtain ⟨e, out, h, _⟩ := mergeFrom_shape rest last last
  exact ⟨e, out, h⟩

theorem mergeFrom_ne_nil (last : period) (rest : List period) : mergeFrom last rest ≠ [] := by
  obtain ⟨e, out, h⟩ := mergeFrom_head last rest
  simp [h]

/-! ## Runs -/

theorem runs_cons_head (p : period) (rest : List period) :
    ∃ r rs, runs (p :: rest) = (p :: r) :: rs := by
  simp only [runs]
  split
  · exact ⟨_, _, rfl⟩
  · exact ⟨_, _, rfl⟩
  · split <;> exact ⟨_, _, rfl⟩

theorem runs_cons_cons (c d : period) (rest : List period) :
    ∃ r rs, runs (d :: rest) = (d :: r) :: rs ∧
      runs (c :: d :: rest) =
        if c.OnCallee = d.OnCallee then (c :: d :: r) :: rs else [c] :: (d :: r) :: rs := by
  obtain ⟨r, rs, h⟩ := runs_cons_head d rest
  refine ⟨r, rs, h, ?_⟩
  have : runs (c :: d :: rest) = match runs (d :: rest) with
    | [] => [[c]]
    | [] :: rs => [c] :: rs
    | (q :: r) :: rs =>
      if c.OnCallee = q.OnCallee then (c :: q :: r) :: rs else [c] :: (q :: r) :: rs := by
    simp only [runs]
  rw [this, h]

theorem mergeFrom_runs (rest : List period) :
    ∀ c : period, List.Forall₂ IsPeriodOfRun (runs (c :: rest)) (mergeFrom c rest) := by
  induction rest with
  | nil =>
    intro c
    have : IsPeriodOfRun [c] c := ⟨c, c, rfl, rfl, rfl, rfl, by simp⟩
    simpa [runs, mergeFrom] using this
  | cons d rest ih =>
    intro c
    obtain ⟨r, rs, hd, hc⟩ := runs_cons_cons c d rest
    have ihd := ih d
    rw [hd] at ihd
    rw [hc]
    by_cases h : c.OnCallee = d.OnCallee
    · obtain ⟨e, out, h1, h2⟩ := mergeFrom_shape rest { c with EndDate := d.EndDate } d
      have h2 := h2 h rfl
      rw [h2] at ihd
      simp only [mergeFrom, if_pos h, h1]
      cases ihd with
      | cons hrun htail =>
        refine List.Forall₂.cons ?_ htail
        obtain ⟨first, last, hf, hl, hs, he, hall⟩ := hrun
        refine ⟨c, last, rfl, ?_, rfl, he, ?_⟩
        · rw [List.getLast?_cons_cons]; exact hl
        · intro x hx
          rcases List.mem_cons.1 hx with rfl | hx
          · rfl
          · have := hall x hx
            simpa [h] using this
    · simp only [mergeFrom, if_neg h]
      refine List.Forall₂.cons ?_ ihd
      exact ⟨c, c, rfl, rfl, rfl, rfl, by simp⟩

theorem compact_runs (recs : List period) :
    List.Forall₂ IsPeriodOfRun (runs recs) (compact recs) := by
  cases recs with
  | nil => simp [runs, compact]
  | cons c rest => exact mergeFrom_runs rest c

theorem runs_flatten (recs : List period) : (runs recs).flatten = recs := by
  induction recs with
  | nil => rfl
  | cons c rest ih =>
    cases rest with
    | nil => simp [runs]
    | cons d rest =>
      obtain ⟨r, rs, hd, hc⟩ := runs_cons_cons c d rest
      rw [hd] at ih
      rw [hc]
      split <;> simpa using ih

theorem runs_uniform (recs : List period) :
    ∀ r ∈ runs recs, r ≠ [] ∧ ∀ x ∈ r, ∀ y ∈ r, x.OnCallee = y.OnCallee := by
  induction recs with
  | nil => simp [runs]
  | cons c rest ih =>
    cases rest with
    | nil => simp [runs]
    | cons d rest =>
      obtain ⟨r, rs, hd, hc⟩ := runs_cons_cons c d rest
      rw [hd] at ih
      rw [hc]
      have hfirst := ih (d :: r) (List.mem_cons_self _ _)
      have hd' : ∀ x ∈ d :: r, x.OnCallee = d.OnCallee :=
        fun x hx => hfirst.2 x hx d (List.mem_cons_self _ _)
      by_cases h : c.OnCallee = d.OnCallee
      · rw [if_pos h]
        intro s hs
        rcases List.mem_cons.1 hs with rfl | hs
        · refine ⟨by simp, ?_⟩
          have hc' : ∀ x ∈ c :: d :: r, x.OnCallee = d.OnCallee := by
            intro x hx
            rcases List.mem_cons.1 hx with rfl | hx
            · exact h
            · exact hd' x hx
          intro x hx y hy
          rw [hc' x hx, hc' y hy]
        · exact ih s (List.mem_cons_of_mem _ hs)
      · rw [if_neg h]
        intro s hs
        rcases List.mem_cons.1 hs with rfl | hs
        · simp
        · exact ih s hs

theorem runs_maximal (recs : List period) :
    List.Chain' (fun r s => ∀ x ∈ r, ∀ y ∈ s, x.OnCallee ≠ y.OnCallee) (runs recs) := by
  induction recs with
  | nil => simp [runs]
  | cons c rest ih =>
    cases rest with
    | nil => simp [runs]
    | cons d rest =>
      obtain ⟨r, rs, hd, hc⟩ := runs_cons_cons c d rest
      have hu := runs_uniform (d :: rest)
      rw [hd] at ih hu
      rw [hc]
      have hd' : ∀ x ∈ d :: r, x.OnCallee = d.OnCallee :=
        fun x hx => (hu (d :: r) (List.mem_cons_self _ _)).2 x hx d (List.mem_cons_self _ _)
      by_cases h : c.OnCallee = d.OnCallee
      · rw [if_pos h]
        cases rs with
        | nil => simp
        | cons s rs =>
          rw [List.chain'_cons] at ih ⊢
          refine ⟨?_, ih.2⟩
          intro x hx y hy
          rcases List.mem_cons.1 hx with rfl | hx
          · rw [h]; exact ih.1 d (List.mem_cons_self _ _) y hy
          · exact ih.1 x hx y hy
      · rw [if_neg h]
        rw [List.chain'_cons]
        refine ⟨?_, ih⟩
        intro x hx y hy
        have hx : x = c := by simpa using hx
        rw [hx, hd' y hy]
        exact h

/-! ## Adjacent output periods -/

theorem mergeFrom_chain (rest : List period) :
    ∀ last : period, List.Chain' Distinct (mergeFrom last rest) := by
  induction rest with
  | nil => intro last; simp [mergeFrom]
  | cons c rest ih =>
    intro last
    by_cases h : last.OnCallee = c.OnCallee
    · simp only [mergeFrom, if_pos h]
      exact ih _
    · simp only [mergeFrom, if_neg h]
      obtain ⟨e, out, hc⟩ := mergeFrom_head c rest
      have := ih c
      rw [hc] at this ⊢
      rw [List.chain'_cons]
      exact ⟨h, this⟩

theorem compact_chain (recs : List period) : List.Chain' Distinct (compact recs) := by
  cases recs with
  | nil => simp [compact]
  | cons c rest => exact mergeFrom_chain rest c

theorem mergeFrom_of_chain (rest : List period) :
    ∀ last : period, List.Chain' Distinct (last :: rest) → mergeFrom last rest = last :: rest := by
  induction rest with
  | nil => intro last _; rfl
  | cons c rest ih =>
    intro last h
    rw [List.chain'_cons] at h
    simp only [mergeFrom, if_neg h.1, ih c h.2]

theorem compact_of_chain (recs : List period) (h : List.Chain' Distinct recs) :
    compact recs = recs := by
  cases recs with
  | nil => rfl
  | cons c rest => exact mergeFrom_of_chain rest c h

/-! ## The loop on a prefix of the input -/

theorem collectLoop_append (xs ys : List Period) :
    ∀ (i : Nat) (periods : List period),
      collectLoop i (xs ++ ys) periods =
        (collectLoop i xs periods).bind (collectLoop (i + xs.length) ys) := by
  induction xs with
  | nil => intro i periods; simp [collectLoop]
  | cons x xs ih =>
    intro i periods
    rw [List.cons_append]
    simp only [collectLoop, List.length_cons]
    cases collectStep i x periods with
    | none => rfl
    | some st =>
      have : i + 1 + xs.length = i + (xs.length + 1) := by omega
      simp only [ih (i + 1) st, this]

theorem compact_ne_nil (c : period) (rest : List period) : compact (c :: rest) ≠ [] :=
  mergeFrom_ne_nil c rest

theorem compact_eq_nil_iff (recs : List period) : compact recs = [] ↔ recs = [] := by
  cases recs with
  | nil => simp [compact]
  | cons c rest => simp [compact_ne_nil]

theorem mergeFrom_snoc (rest : List period) (c : period) :
    ∀ last : period, ∃ init prev,
      mergeFrom last rest = init ++ [prev] ∧
      prev.OnCallee = ((last :: rest).getLast (by simp)).OnCallee ∧
      mergeFrom last (rest ++ [c]) =
        if prev.OnCallee = c.OnCallee then init ++ [{ prev with EndDate := c.EndDate }]
        else init ++ [prev, c] := by
  induction rest with
  | nil =>
    intro last
    refine ⟨[], last, rfl, rfl, ?_⟩
    by_cases h : last.OnCallee = c.OnCallee <;> simp [mergeFrom, h]
  | cons d rest ih =>
    intro last
    by_cases h : last.OnCallee = d.OnCallee
    · obtain ⟨init, prev, h1, h2, h3⟩ := ih { last with EndDate := d.EndDate }
      refine ⟨init, prev, ?_, ?_, ?_⟩
      · simp only [mergeFrom, if_pos h]; exact h1
      · rw [h2]
        cases rest with
        | nil => simpa using h
        | cons e rest => simp
      · rw [List.cons_append]
        simp only [mergeFrom, if_pos h]; exact h3
    · obtain ⟨init, prev, h1, h2, h3⟩ := ih d
      refine ⟨last :: init, prev, ?_, ?_, ?_⟩
      · simp only [mergeFrom, if_neg h, h1, List.cons_append]
      · rw [h2]; simp
      · rw [List.cons_append]
        simp only [mergeFrom, if_neg h, h3]
        split <;> rfl

/-! ## Length of the output -/

theorem identifier_eq_iff (a b : identifier) : a = b ↔ a.Name = b.Name ∧ a.ID = b.ID := by
  cases a; cases b; simp

theorem changes_cons_cons (a c : period) (rest : List period) :
    changes (a :: c :: rest) =
      (if a.OnCallee = c.OnCallee then 0 else 1) + changes (c :: rest) := by
  unfold changes
  simp only [List.tail_cons, List.zip_cons_cons, List.countP_cons]
  by_cases h : a.OnCallee = c.OnCallee
  · have h1 := (identifier_eq_iff _ _).1 h
    simp [h, h1.1, h1.2]
  · have h1 : a.OnCallee.Name ≠ c.OnCallee.Name ∨ a.OnCallee.ID ≠ c.OnCallee.ID := by
      by_contra hc
      push_neg at hc
      exact h ((identifier_eq_iff _ _).2 hc)
    simp [h, h1]
    omega

theorem changes_congr (a b : period) (rest : List period) (h : a.OnCallee = b.OnCallee) :
    changes (a :: rest) = changes (b :: rest) := by
  cases rest with
  | nil => simp [changes]
  | cons c rest => rw [changes_cons_cons, changes_cons_cons, h]

theorem mergeFrom_length (rest : List period) :
    ∀ last : period, (mergeFrom last rest).length = 1 + changes (last :: rest) := by
  induction rest with
  | nil => intro last; simp [mergeFrom, changes]
  | cons c rest ih =>
    intro last
    rw [changes_cons_cons]
    by_cases h : last.OnCallee = c.OnCallee
    · simp only [mergeFrom, if_pos h, ih]
      rw [changes_congr { last with EndDate := c.EndDate } c rest h]
      omega
    · simp only [mergeFrom, if_neg h, List.length_cons, ih]
      omega

/-! ## Order and duration -/

theorem mergeFrom_ordered (rest : List period) :
    ∀ last : period,
      List.Pairwise (fun a b : period => a.StartDate ≤ b.StartDate) (last :: rest) →
      last.StartDate ≤ last.EndDate →
      (∀ x ∈ rest, x.StartDate ≤ x.EndDate) →
      (∀ o ∈ mergeFrom last rest, o.StartDate ≤ o.EndDate ∧ last.StartDate ≤ o.StartDate) ∧
      List.Pairwise (fun a b : period => a.StartDate ≤ b.StartDate) (mergeFrom last rest) := by
  induction rest with
  | nil =>
    intro last _ hl _
    simp [mergeFrom, hl]
  | cons c rest ih =>
    intro last hp hl hall
    rw [List.pairwise_cons] at hp
    obtain ⟨hlast, hrest⟩ := hp
    have hlc : last.StartDate ≤ c.StartDate := hlast c (List.mem_cons_self _ _)
    have hc : c.StartDate ≤ c.EndDate := hall c (List.mem_cons_self _ _)
    have hall' : ∀ x ∈ rest, x.StartDate ≤ x.EndDate :=
      fun x hx => hall x (List.mem_cons_of_mem _ hx)
    by_cases h : last.OnCallee = c.OnCallee
    · simp only [mergeFrom, if_pos h]
      have hp' : List.Pairwise (fun a b : period => a.StartDate ≤ b.StartDate)
          ({ last with EndDate := c.EndDate } :: rest) := by
        rw [List.pairwise_cons]
        exact ⟨fun x hx => hlast x (List.mem_cons_of_mem _ hx), (List.pairwise_cons.1 hrest).2⟩
      exact ih { last with EndDate := c.EndDate } hp' (le_trans hlc hc) hall'
    · simp only [mergeFrom, if_neg h]
      obtain ⟨h1, h2⟩ := ih c hrest hc hall'
      refine ⟨?_, ?_⟩
      · intro o ho
        rcases List.mem_cons.1 ho with rfl | ho
        · exact ⟨hl, le_refl _⟩
        · exact ⟨(h1 o ho).1, le_trans hlc (h1 o ho).2⟩
      · rw [List.pairwise_cons]
        exact ⟨fun o ho => le_trans hlc (h1 o ho).2, h2⟩

theorem mergeFrom_duration (rest : List period) :
    ∀ last : period,
      List.Chain' (fun a b : period => a.OnCallee = b.OnCallee → b.StartDate = a.EndDate)
        (last :: rest) →
      totalDuration (mergeFrom last rest) = totalDuration (last :: rest) := by
  induction rest with
  | nil => intro last _; rfl
  | cons c rest ih =>
    intro last hch
    rw [List.chain'_cons] at hch
    obtain ⟨hlc, hrest⟩ := hch
    by_cases h : last.OnCallee = c.OnCallee
    · simp only [mergeFrom, if_pos h]
      have hch' : List.Chain' (fun a b : period => a.OnCallee = b.OnCallee → b.StartDate = a.EndDate)
          ({ last with EndDate := c.EndDate } :: rest) := by
        cases rest with
        | nil => simp
        | cons d rest =>
          rw [List.chain'_cons] at hrest ⊢
          exact ⟨fun hd => hrest.1 (h ▸ hd), hrest.2⟩
      rw [ih _ hch']
      have : (c.StartDate : Int) = last.EndDate := hlc h
      simp only [totalDuration, List.map_cons, List.sum_cons]
      rw [this]; omega
    · simp only [mergeFrom, if_neg h]
      have := ih c hrest
      simp only [totalDuration, List.map_cons, List.sum_cons] at this ⊢
      omega

/-! ## Coverage -/

theorem mem_coverage_cons (t : Time) (a : period) (l : List period) :
    t ∈ coverage (a :: l) ↔ (a.StartDate ≤ t ∧ t < a.EndDate) ∨ t ∈ coverage l := by
  simp [coverage]

theorem mergeFrom_coverage (rest : List period) :
    ∀ last : period, List.Chain' Continues (last :: rest) →
      coverage (mergeFrom last rest) = coverage (last :: rest) := by
  induction rest with
  | nil => intro last _; rfl
  | cons c rest ih =>
    intro last hch
    rw [List.chain'_cons] at hch
    obtain ⟨hlc, hrest⟩ := hch
    by_cases h : last.OnCallee = c.OnCallee
    · simp only [mergeFrom, if_pos h]
      obtain ⟨h1, h2, h3⟩ := hlc h
      have hch' : List.Chain' Continues ({ last with EndDate := c.EndDate } :: rest) := by
        cases rest with
        | nil => simp
        | cons d rest =>
          rw [List.chain'_cons] at hrest ⊢
          refine ⟨?_, hrest.2⟩
          intro hd
          obtain ⟨g1, g2, g3⟩ := hrest.1 (h ▸ hd)
          exact ⟨le_trans h1 g1, g2, g3⟩
      rw [ih _ hch']
      ext t
      simp only [mem_coverage_cons]
      constructor
      · rintro (⟨a1, a2⟩ | hr)
        · by_cases ht : t < last.EndDate
          · exact Or.inl ⟨a1, ht⟩
          · exact Or.inr (Or.inl ⟨le_trans h2 (not_lt.1 ht), a2⟩)
        · exact Or.inr (Or.inr hr)
      · rintro (⟨a1, a2⟩ | ⟨a1, a2⟩ | hr)
        · exact Or.inl ⟨a1, lt_of_lt_of_le a2 h3⟩
        · exact Or.inl ⟨le_trans h1 a1, a2⟩
        · exact Or.inr hr
    · simp only [mergeFrom, if_neg h]
      ext t
      rw [mem_coverage_cons, mem_coverage_cons, ih c hrest]

/-! ## The map of `getScheduleTimeline` -/

theorem mapAssign_fresh (m : RotationPeriods) (k : identifier) (v : List period)
    (h : k ∉ mapKeys m) : mapAssign m k v = m ++ [(k, v)] := by
  induction m with
  | nil => rfl
  | cons e m ih =>
    obtain ⟨k1, v1⟩ := e
    simp only [mapKeys, List.map_cons, List.mem_cons, not_or] at h
    have hne : ¬ k1 = k := fun hk => h.1 hk.symm
    simp only [mapAssign, if_neg hne, List.cons_append]
    rw [ih h.2]

theorem mapKeys_append (m n : RotationPeriods) : mapKeys (m ++ n) = mapKeys m ++ mapKeys n := by
  simp [mapKeys]

theorem timelineLoop_eq (rots : List TimelineRotation) :
    ∀ m : RotationPeriods,
      (mapKeys m ++ rots.map rotationId).Nodup →
      timelineLoop rots m =
        some (m ++ rots.map (fun rot => (rotationId rot, compact (records rot)))) := by
  induction rots with
  | nil => intro m _; simp [timelineLoop]
  | cons rot rots ih =>
    intro m hnd
    have hfresh : rotationId rot ∉ mapKeys m := by
      intro hmem
      rw [List.map_cons, List.nodup_append] at hnd
      exact hnd.2.2 hmem (List.mem_cons_self _ _)
    simp only [timelineLoop, collectPeriods_eq, mapAssign_fresh m _ _ hfresh]
    have hnd' : (mapKeys (m ++ [(rotationId rot, compact (rot.Periods.map current))])
        ++ rots.map rotationId).Nodup := by
      rw [mapKeys_append]
      simpa [mapKeys] using hnd
    rw [ih _ hnd']
    simp [records]

theorem mapIndex_of_mem (m : RotationPeriods) (k : identifier) (v : List period)
    (hnd : (mapKeys m).Nodup) (hmem : (k, v) ∈ m) : mapIndex m k = some v := by
  induction m with
  | nil => simp at hmem
  | cons e m ih =>
    obtain ⟨k1, v1⟩ := e
    simp only [mapKeys, List.map_cons, List.nodup_cons] at hnd
    rcases List.mem_cons.1 hmem with heq | hmem
    · cases heq
      simp [mapIndex]
    · have hne : ¬ k1 = k := by
        intro hk
        subst hk
        exact hnd.1 (List.mem_map_of_mem Prod.fst hmem)
      simp only [mapIndex, if_neg hne]
      exact ih hnd.2 hmem

/-! ## Formatting and parsing the interval -/

theorem digitChar_isDigit (d : Nat) (h : d < 10) :
    (Nat.digitChar d).isDigit = true ∧ (Nat.digitChar d).toNat - '0'.toNat = d := by
  interval_cases d <;> exact ⟨by decide, by decide⟩

theorem digitsValue_append (ds : List Char) (c : Char) :
    digitsValue (ds ++ [c]) = digitsValue ds * 10 + (c.toNat - '0'.toNat) := by
  simp [digitsValue]

theorem digitsValue_append_list (ds es : List Char) :
    digitsValue (ds ++ es) = es.foldl (fun n ch => n * 10 + (ch.toNat - '0'.toNat)) (digitsValue ds) := by
  simp [digitsValue]

theorem toDigitsCore_spec (fuel : Nat) :
    ∀ (n : Nat) (acc : List Char), n < fuel →
      ∃ ds, Nat.toDigitsCore 10 fuel n acc = ds ++ acc ∧ ds ≠ [] ∧
        (∀ c ∈ ds, c.isDigit = true) ∧ digitsValue ds = n := by
  induction fuel with
  | zero => intro n acc h; omega
  | succ fuel ih =>
    intro n acc h
    have hd := digitChar_isDigit (n % 10) (Nat.mod_lt _ (by decide))
    by_cases h0 : n / 10 = 0
    · refine ⟨[Nat.digitChar (n % 10)], ?_, by simp, ?_, ?_⟩
      · simp [Nat.toDigitsCore, h0]
      · simpa using hd.1
      · have : n < 10 := by omega
        have h2 := hd.2
        rw [Nat.mod_eq_of_lt this] at h2 ⊢
        simpa [digitsValue] using h2
    · obtain ⟨ds, h1, h2, h3, h4⟩ := ih (n / 10) (Nat.digitChar (n % 10) :: acc) (by omega)
      refine ⟨ds ++ [Nat.digitChar (n % 10)], ?_, by simp, ?_, ?_⟩
      · simp [Nat.toDigitsCore, h0, h1]
      · intro c hc
        rcases List.mem_append.1 hc with hc | hc
        · exact h3 c hc
        · have : c = Nat.digitChar (n % 10) := by simpa using hc
          rw [this]; exact hd.1
      · rw [digitsValue_append, h4, hd.2]
        omega

theorem toDigits_spec (n : Nat) :
    Nat.toDigits 10 n ≠ [] ∧ (∀ c ∈ Nat.toDigits 10 n, c.isDigit = true) ∧
      digitsValue (Nat.toDigits 10 n) = n := by
  obtain ⟨ds, h1, h2, h3, h4⟩ := toDigitsCore_spec (n + 1) n [] (by omega)
  have : Nat.toDigits 10 n = ds := by simpa [Nat.toDigits] using h1
  rw [this]
  exact ⟨h2, h3, h4⟩

theorem takeWhile_digits (ds u : List Char) (hds : ∀ c ∈ ds, c.isDigit = true)
    (hu : ∀ c, u.head? = some c → c.isDigit = false) :
    (ds ++ u).takeWhile Char.isDigit = ds := by
  induction ds with
  | nil =>
    cases u with
    | nil => rfl
    | cons c u => simp [List.takeWhile, hu c rfl]
  | cons d ds ih =>
    have hd := hds d (List.mem_cons_self _ _)
    rw [List.cons_append, List.takeWhile_cons, hd]
    simp only [if_true]
    rw [ih (fun c hc => hds c (List.mem_cons_of_mem _ hc))]

theorem matchUnit_unit (u : String) (hu : u ∈ ["days", "weeks", "months"]) :
    matchUnit u.data = some u.data ∧ ∀ c, u.data.head? = some c → c.isDigit = false := by
  simp only [List.mem_cons, List.mem_singleton, List.not_mem_nil, or_false] at hu
  rcases hu with rfl | rfl | rfl <;> decide

theorem matchHere_digits_unit (ds u : List Char) (hne : ds ≠ [])
    (hds : ∀ c ∈ ds, c.isDigit = true)
    (hu : ∀ c, u.head? = some c → c.isDigit = false) (hm : matchUnit u = some u) :
    matchHere (ds ++ u) = some (ds, u) := by
  unfold matchHere
  rw [takeWhile_digits ds u hds hu]
  obtain ⟨k, hk⟩ : ∃ k, ds.length = k + 1 :=
    ⟨ds.length - 1, by have := List.length_pos.2 hne; omega⟩
  rw [hk]
  have hdrop : (ds ++ u).drop (k + 1) = u := by rw [← hk]; simp
  have htake : (ds ++ u).take (k + 1) = ds := by rw [← hk]; simp
  simp only [matchDigits, hdrop, hm, htake]

theorem FindStringSubmatch_digits_unit (ds u : List Char) (hne : ds ≠ [])
    (hds : ∀ c ∈ ds, c.isDigit = true)
    (hu : ∀ c, u.head? = some c → c.isDigit = false) (hm : matchUnit u = some u) :
    scheduleIntervalRegexp.FindStringSubmatch (ds ++ u) = [ds ++ u, ds, u] := by
  have hmatch := matchHere_digits_unit ds u hne hds hu hm
  obtain ⟨c, ds1, rfl⟩ := List.exists_cons_of_ne_nil hne
  rw [List.cons_append] at hmatch ⊢
  simp only [scheduleIntervalRegexp.FindStringSubmatch, hmatch, List.cons_append]

theorem Atoi_digits (ds : List Char) (hne : ds ≠ [])
    (hds : ∀ c ∈ ds, c.isDigit = true) (hrange : digitsValue ds < 2 ^ 63) :
    Atoi ds = .ok (digitsValue ds : Int) := by
  obtain ⟨c, ds1, rfl⟩ := List.exists_cons_of_ne_nil hne
  have hc := hds c (List.mem_cons_self _ _)
  have h1 : c ≠ '-' := by rintro rfl; exact absurd hc (by decide)
  have h2 : c ≠ '+' := by rintro rfl; exact absurd hc (by decide)
  have hall : (c :: ds1).all Char.isDigit = true := by
    rw [List.all_eq_true]; exact hds
  have hbody : (match c :: ds1 with
      | '-' :: t => t
      | '+' :: t => t
      | t => t) = c :: ds1 := by
    split
    · rename_i heq; cases heq; exact absurd rfl h1
    · rename_i heq; cases heq; exact absurd rfl h2
    · rfl
  unfold Atoi
  simp only [hbody]
  have hhead : ¬ (c :: ds1).head? = some '-' := by simpa using h1
  have hv : ¬ ((digitsValue (c :: ds1) : Int) < -(2 ^ 63) ∨ (2 : Int) ^ 63 ≤ digitsValue (c :: ds1)) := by
    have : ((digitsValue (c :: ds1) : Nat) : Int) < 2 ^ 63 := by exact_mod_cast hrange
    omega
  simp only [hall, hhead, if_false, hv]
  simp

/-! # The claims -/

/-- C1: for every input sequence, `collectPeriods` returns the run-length
encoding of the records by on-callee.  The runs of the input concatenate to
the input, each run is non-empty with one on-callee, adjacent runs have
different on-callees (the runs are maximal), and the output has one period per
run, in run order, from the start of the run's first record to the end of its
last record, with the run's on-callee.  On `[(10,20,A),(20,30,A),(30,40,B)]`
the output is `[(10,30,A),(30,40,B)]`. -/
theorem collectPeriods_run_length_encoding :
    (∀ rot : TimelineRotation, ∃ out, collectPeriods rot = some out ∧
      List.Forall₂ IsPeriodOfRun (runs (records rot)) out ∧
      (runs (records rot)).flatten = records rot ∧
      (∀ r ∈ runs (records rot), r ≠ [] ∧ ∀ x ∈ r, ∀ y ∈ r, x.OnCallee = y.OnCallee) ∧
      List.Chain' (fun r s => ∀ x ∈ r, ∀ y ∈ s, x.OnCallee ≠ y.OnCallee)
        (runs (records rot))) ∧
    collectPeriods (rotationOf [⟨10, 20, recipientA⟩, ⟨20, 30, recipientA⟩, ⟨30, 40, recipientB⟩])
      = some [⟨10, 30, calleeA⟩, ⟨30, 40, calleeB⟩] := by
  refine ⟨fun rot => ⟨compact (records rot), collectPeriods_eq rot, compact_runs _,
    runs_flatten _, runs_uniform _, runs_maximal _⟩, ?_⟩
  decide

/-- C2: for every input sequence, no two adjacent periods of the output of
`collectPeriods` have the same on-callee (same `Name` and same `ID`). -/
theorem collectPeriods_adjacent_distinct (rot : TimelineRotation) :
    ∃ out, collectPeriods rot = some out ∧
      List.Chain' (fun a b : period =>
        ¬ (a.OnCallee.Name = b.OnCallee.Name ∧ a.OnCallee.ID = b.OnCallee.ID)) out := by
  refine ⟨compact (records rot), collectPeriods_eq rot, ?_⟩
  refine List.Chain'.imp ?_ (compact_chain (records rot))
  intro a b hab hc
  exact hab ((identifier_eq_iff _ _).2 hc)

/-- C3: on an input in which no two adjacent records have the same on-callee,
`collectPeriods` returns the records unchanged, element for element. -/
theorem collectPeriods_compact_input (rot : TimelineRotation)
    (h : List.Chain' (fun a b : period => a.OnCallee ≠ b.OnCallee) (records rot)) :
    collectPeriods rot = some (records rot) := by
  rw [collectPeriods_eq]
  exact congrArg some (compact_of_chain _ h)

/-- The input `[(0,10,A),(10,20,B),(20,30,A)]`, where `A` recurs after `B`, is
returned unchanged. -/
theorem collectPeriods_compact_input_witness :
    List.Chain' (fun a b : period => a.OnCallee ≠ b.OnCallee)
        (records (rotationOf [⟨0, 10, recipientA⟩, ⟨10, 20, recipientB⟩, ⟨20, 30, recipientA⟩])) ∧
      collectPeriods (rotationOf [⟨0, 10, recipientA⟩, ⟨10, 20, recipientB⟩, ⟨20, 30, recipientA⟩])
        = some [⟨0, 10, calleeA⟩, ⟨10, 20, calleeB⟩, ⟨20, 30, calleeA⟩] :=
  ⟨by simp [records, rotationOf, current, recipientA, recipientB],
    collectPeriods_compact_input
      (rotationOf [⟨0, 10, recipientA⟩, ⟨10, 20, recipientB⟩, ⟨20, 30, recipientA⟩])
      (by simp [records, rotationOf, current, recipientA, recipientB])⟩

/-- C6: `collectPeriods` never fails.  It returns a slice for every input and
the empty slice for the empty input; and at every iteration of every run, on
the record `p` at index `pre.length` after the records `pre`, the slice built
so far is empty exactly when the index is 0, and the loop body returns without
an out-of-range access. -/
theorem collectPeriods_total :
    (∀ rot : TimelineRotation, ∃ out, collectPeriods rot = some out) ∧
    (∀ id name : String, collectPeriods { Id := id, Name := name, Periods := [] } = some []) ∧
    (∀ (pre : List Period) (p : Period) (post : List Period), ∃ periods next,
      collectLoop 0 pre [] = some periods ∧
      (pre.length = 0 ↔ periods = []) ∧
      collectStep pre.length p periods = some next ∧
      collectLoop 0 (pre ++ p :: post) [] = collectLoop (pre.length + 1) post next) := by
  refine ⟨fun rot => ⟨_, collectPeriods_eq rot⟩, fun _ _ => rfl, ?_⟩
  intro pre p post
  have hstep : ∃ next, collectStep pre.length p (compact (pre.map current)) = some next := by
    cases pre with
    | nil => exact ⟨_, collectStep_zero p _⟩
    | cons q pre =>
      obtain ⟨e, out, h⟩ := mergeFrom_head (current q) (pre.map current)
      obtain ⟨init, last, hl⟩ : ∃ init last, mergeFrom (current q) (pre.map current) = init ++ [last] :=
        ⟨_, _, (List.dropLast_append_getLast (mergeFrom_ne_nil _ _)).symm⟩
      simp only [List.map_cons, compact, List.length_cons, hl, collectStep_succ]
      split <;> exact ⟨_, rfl⟩
  obtain ⟨next, hnext⟩ := hstep
  refine ⟨compact (pre.map current), next, collectLoop_zero pre, ?_, hnext, ?_⟩
  · rw [compact_eq_nil_iff]
    simp
  · rw [collectLoop_append, collectLoop_zero]
    simp only [Option.bind, Nat.zero_add, collectLoop, hnext]

/-- C4, as stated, fails: on `[(10,20,A),(30,40,A)]` the output is the single
period `(10,40,A)`, whose range contains the instant 25 that no input record
covers. -/
theorem collectPeriods_coverage_counterexample :
    collectPeriods (rotationOf [⟨10, 20, recipientA⟩, ⟨30, 40, recipientA⟩])
        = some [⟨10, 40, calleeA⟩] ∧
      coverage [⟨10, 40, calleeA⟩]
        ≠ coverage (records (rotationOf [⟨10, 20, recipientA⟩, ⟨30, 40, recipientA⟩])) := by
  refine ⟨by decide, fun h => ?_⟩
  have h25 : (25 : Time) ∈ coverage [⟨10, 40, calleeA⟩] := by
    simp [coverage]
  rw [h] at h25
  simp [coverage, records, rotationOf, current] at h25

/-- C4, amended: when every record that has the on-callee of its predecessor
starts within the predecessor (no earlier than it starts, no later than it
ends) and ends no earlier than the predecessor ends, the union of the ranges
`[StartDate, EndDate)` of the output of `collectPeriods` equals the union over
the input records. -/
theorem collectPeriods_coverage (rot : TimelineRotation)
    (h : List.Chain' Continues (records rot)) :
    ∃ out, collectPeriods rot = some out ∧ coverage out = coverage (records rot) := by
  refine ⟨compact (records rot), collectPeriods_eq rot, ?_⟩
  cases hrec : records rot with
  | nil => rfl
  | cons c rest =>
    rw [hrec] at h
    exact mergeFrom_coverage rest c h

/-- The amended C4 on `[(10,20,A),(20,30,A),(30,40,B)]`. -/
theorem collectPeriods_coverage_witness :
    List.Chain' Continues
        (records (rotationOf [⟨10, 20, recipientA⟩, ⟨20, 30, recipientA⟩, ⟨30, 40, recipientB⟩])) ∧
      ∃ out,
        collectPeriods (rotationOf [⟨10, 20, recipientA⟩, ⟨20, 30, recipientA⟩, ⟨30, 40, recipientB⟩])
          = some out ∧
        coverage out = coverage
          (records (rotationOf [⟨10, 20, recipientA⟩, ⟨20, 30, recipientA⟩, ⟨30, 40, recipientB⟩])) :=
  ⟨by simp [records, rotationOf, current, recipientA, recipientB, Continues],
    collectPeriods_coverage
      (rotationOf [⟨10, 20, recipientA⟩, ⟨20, 30, recipientA⟩, ⟨30, 40, recipientB⟩])
      (by simp [records, rotationOf, current, recipientA, recipientB, Continues])⟩

/-- C5: the merge decision is equality of both identity fields of consecutive
records.  In every run, at the record `p` that follows the record `q` (index
`pre.length + 1`), the slice built so far ends in a period `prev`, and the loop
body replaces the end of `prev` by the end of `p` when `p` has the `Name` and
the `ID` of `q`, and appends a new period for `p` otherwise.  For a non-empty
input the output has 1 plus the number of such changes many periods, and two
consecutive records with equal `ID` and different `Name` are not merged. -/
theorem collectPeriods_merge_decision :
    (∀ (pre : List Period) (q p : Period) (post : List Period), ∃ init prev,
      collectLoop 0 (pre ++ [q]) [] = some (init ++ [prev]) ∧
      collectStep (pre.length + 1) p (init ++ [prev]) =
        some (if (current p).OnCallee.Name = (current q).OnCallee.Name ∧
                (current p).OnCallee.ID = (current q).OnCallee.ID
              then init ++ [{ prev with EndDate := (current p).EndDate }]
              else init ++ [prev, current p]) ∧
      collectLoop 0 (pre ++ q :: p :: post) [] =
        (collectStep (pre.length + 1) p (init ++ [prev])).bind
          (collectLoop (pre.length + 2) post)) ∧
    (∀ (id name : String) (p : Period) (rest : List Period), ∃ out,
      collectPeriods { Id := id, Name := name, Periods := p :: rest } = some out ∧
      out.length = 1 + changes ((p :: rest).map current)) ∧
    collectPeriods (rotationOf [⟨0, 10, ⟨"u1", "Ann"⟩⟩, ⟨10, 20, ⟨"u1", "Ann B."⟩⟩])
      = some [⟨0, 10, ⟨"Ann", "u1"⟩⟩, ⟨10, 20, ⟨"Ann B.", "u1"⟩⟩] := by
  refine ⟨?_, ?_, by decide⟩
  · intro pre q p post
    obtain ⟨c, rest, hcr⟩ : ∃ c rest, (pre ++ [q]).map current = c :: rest :=
      List.exists_cons_of_ne_nil (by simp)
    obtain ⟨init, prev, h1, h2, _⟩ := mergeFrom_snoc rest (current p) c
    have hlast : prev.OnCallee = (current q).OnCallee := by
      rw [h2]
      have : (c :: rest).getLast (by simp) = current q := by
        simp [← hcr]
      rw [this]
    have hloop : collectLoop 0 (pre ++ [q]) [] = some (init ++ [prev]) := by
      rw [collectLoop_zero, hcr, compact, h1]
    refine ⟨init, prev, hloop, ?_, ?_⟩
    · rw [collectStep_succ]
      by_cases h : prev.OnCallee = (current p).OnCallee
      · have hpq := (identifier_eq_iff _ _).1 (h.symm.trans hlast)
        rw [if_pos h, if_pos hpq]
      · have hpq : ¬ ((current p).OnCallee.Name = (current q).OnCallee.Name ∧
            (current p).OnCallee.ID = (current q).OnCallee.ID) := by
          intro hc
          exact h (hlast.trans ((identifier_eq_iff _ _).2 hc).symm)
        rw [if_neg h, if_neg hpq]
        simp
    · have happ : pre ++ q :: p :: post = (pre ++ [q]) ++ p :: post := by simp
      rw [happ, collectLoop_append, hloop]
      simp only [Option.bind, Nat.zero_add, List.length_append, List.length_singleton, collectLoop]
      cases collectStep (pre.length + 1) p (init ++ [prev]) <;> rfl
  · intro id name p rest
    refine ⟨_, collectPeriods_eq _, ?_⟩
    exact mergeFrom_length _ _

/-- C7: for a fetched timeline whose rotations have pairwise distinct
identities, `getScheduleTimeline` returns a map whose keys are exactly the
identities of the rotations, one key per rotation, and the value at the key of
a rotation is `collectPeriods` of that rotation.  Hence a rotation that occurs
unchanged in another such timeline has the same value there, whatever the
periods of the other rotations are. -/
theorem getScheduleTimeline_independent (timeline : TimelineResult) (scheduleName : String)
    (h : (timeline.FinalTimeline.Rotations.map rotationId).Nodup) :
    ∃ m, getScheduleTimeline (.ok timeline) scheduleName = some (.ok m) ∧
      (mapKeys m).Nodup ∧
      (mapKeys m).Perm (timeline.FinalTimeline.Rotations.map rotationId) ∧
      (∀ rot ∈ timeline.FinalTimeline.Rotations, ∃ periods,
        collectPeriods rot = some periods ∧ mapIndex m (rotationId rot) = some periods) ∧
      (∀ (other : TimelineResult) (name : String),
        (other.FinalTimeline.Rotations.map rotationId).Nodup →
        ∀ rot ∈ timeline.FinalTimeline.Rotations, rot ∈ other.FinalTimeline.Rotations →
        ∃ m1, getScheduleTimeline (.ok other) name = some (.ok m1) ∧
          mapIndex m1 (rotationId rot) = mapIndex m (rotationId rot)) := by
  have key : ∀ (t : TimelineResult) (n : String),
      (t.FinalTimeline.Rotations.map rotationId).Nodup →
      getScheduleTimeline (.ok t) n = some (.ok
        (t.FinalTimeline.Rotations.map (fun rot => (rotationId rot, compact (records rot))))) ∧
      ∀ rot ∈ t.FinalTimeline.Rotations,
        mapIndex (t.FinalTimeline.Rotations.map (fun rot => (rotationId rot, compact (records rot))))
          (rotationId rot) = some (compact (records rot)) := by
    intro t n hnd
    have hloop := timelineLoop_eq t.FinalTimeline.Rotations [] (by simpa [mapKeys] using hnd)
    refine ⟨?_, ?_⟩
    · simp only [getScheduleTimeline, hloop, List.nil_append]
    · intro rot hrot
      refine mapIndex_of_mem _ _ _ ?_ (List.mem_map.2 ⟨rot, hrot, rfl⟩)
      simpa [mapKeys, List.map_map, Function.comp_def] using hnd
  obtain ⟨hget, hidx⟩ := key timeline scheduleName h
  have hkeys : mapKeys (timeline.FinalTimeline.Rotations.map
      (fun rot => (rotationId rot, compact (records rot))))
      = timeline.FinalTimeline.Rotations.map rotationId := by
    simp [mapKeys, List.map_map, Function.comp_def]
  refine ⟨_, hget, ?_, ?_, ?_, ?_⟩
  · rw [hkeys]; exact h
  · rw [hkeys]
  · intro rot hrot
    exact ⟨_, collectPeriods_eq rot, hidx rot hrot⟩
  · intro other name hnd rot hrot hrot1
    obtain ⟨hget1, hidx1⟩ := key other name hnd
    exact ⟨_, hget1, (hidx1 rot hrot1).trans (hidx rot hrot).symm⟩

/-- C7 on a timeline of two rotations. -/
theorem getScheduleTimeline_independent_witness :
    ((([⟨"r1", "first", [⟨10, 20, recipientA⟩, ⟨20, 30, recipientA⟩]⟩,
        ⟨"r2", "second", [⟨10, 20, recipientB⟩]⟩] : List TimelineRotation)).map rotationId).Nodup ∧
      ∃ m, getScheduleTimeline
          (.ok ⟨⟨[⟨"r1", "first", [⟨10, 20, recipientA⟩, ⟨20, 30, recipientA⟩]⟩,
            ⟨"r2", "second", [⟨10, 20, recipientB⟩]⟩]⟩⟩) "ops" = some (.ok m) ∧
        mapIndex m ⟨"second", "r2"⟩ = some [⟨10, 20, calleeB⟩] := by
  refine ⟨by decide, ?_⟩
  obtain ⟨m, h1, _, _, h4, _⟩ := getScheduleTimeline_independent
    ⟨⟨[⟨"r1", "first", [⟨10, 20, recipientA⟩, ⟨20, 30, recipientA⟩]⟩,
      ⟨"r2", "second", [⟨10, 20, recipientB⟩]⟩]⟩⟩ "ops" (by decide)
  refine ⟨m, h1, ?_⟩
  obtain ⟨periods, hp, hm⟩ := h4 ⟨"r2", "second", [⟨10, 20, recipientB⟩]⟩ (by simp)
  rw [show rotationId ⟨"r2", "second", [⟨10, 20, recipientB⟩]⟩ = ⟨"second", "r2"⟩ from rfl] at hm
  rw [hm, ← hp]
  decide

/-- C8: on an input whose records are in non-decreasing `StartDate` order and
each satisfy `StartDate ≤ EndDate`, every period of the output of
`collectPeriods` satisfies `StartDate ≤ EndDate` and the output is in
non-decreasing `StartDate` order. -/
theorem collectPeriods_keeps_order (rot : TimelineRotation)
    (hsorted : List.Chain' (fun a b : period => a.StartDate ≤ b.StartDate) (records rot))
    (hvalid : ∀ p ∈ records rot, p.StartDate ≤ p.EndDate) :
    ∃ out, collectPeriods rot = some out ∧
      (∀ o ∈ out, o.StartDate ≤ o.EndDate) ∧
      List.Pairwise (fun a b : period => a.StartDate ≤ b.StartDate) out := by
  refine ⟨compact (records rot), collectPeriods_eq rot, ?_⟩
  haveI : IsTrans period (fun a b : period => a.StartDate ≤ b.StartDate) :=
    ⟨fun _ _ _ h1 h2 => le_trans h1 h2⟩
  rw [List.chain'_iff_pairwise] at hsorted
  cases hrec : records rot with
  | nil => simp [compact]
  | cons c rest =>
    rw [hrec] at hsorted hvalid
    obtain ⟨h1, h2⟩ := mergeFrom_ordered rest c hsorted (hvalid c (List.mem_cons_self _ _))
      (fun x hx => hvalid x (List.mem_cons_of_mem _ hx))
    exact ⟨fun o ho => (h1 o ho).1, h2⟩

/-- C8 on `[(10,20,A),(20,30,A),(30,40,B)]`. -/
theorem collectPeriods_keeps_order_witness :
    (List.Chain' (fun a b : period => a.StartDate ≤ b.StartDate)
        (records (rotationOf [⟨10, 20, recipientA⟩, ⟨20, 30, recipientA⟩, ⟨30, 40, recipientB⟩])) ∧
      ∀ p ∈ records (rotationOf [⟨10, 20, recipientA⟩, ⟨20, 30, recipientA⟩, ⟨30, 40, recipientB⟩]),
        p.StartDate ≤ p.EndDate) ∧
      ∃ out,
        collectPeriods (rotationOf [⟨10, 20, recipientA⟩, ⟨20, 30, recipientA⟩, ⟨30, 40, recipientB⟩])
          = some out ∧
        (∀ o ∈ out, o.StartDate ≤ o.EndDate) ∧
        List.Pairwise (fun a b : period => a.StartDate ≤ b.StartDate) out :=
  ⟨⟨by simp [records, rotationOf, current], by simp [records, rotationOf, current]⟩,
    collectPeriods_keeps_order
      (rotationOf [⟨10, 20, recipientA⟩, ⟨20, 30, recipientA⟩, ⟨30, 40, recipientB⟩])
      (by simp [records, rotationOf, current]) (by simp [records, rotationOf, current])⟩

/-- C9: on an input in which every record that has the on-callee of its
predecessor starts exactly where the predecessor ends, the sum of
`EndDate - StartDate` over the output of `collectPeriods` equals the sum over
the input records. -/
theorem collectPeriods_total_duration (rot : TimelineRotation)
    (h : List.Chain' (fun a b : period => a.OnCallee = b.OnCallee → b.StartDate = a.EndDate)
      (records rot)) :
    ∃ out, collectPeriods rot = some out ∧ totalDuration out = totalDuration (records rot) := by
  refine ⟨compact (records rot), collectPeriods_eq rot, ?_⟩
  cases hrec : records rot with
  | nil => rfl
  | cons c rest =>
    rw [hrec] at h
    exact mergeFrom_duration rest c h

/-- C9 on `[(10,20,A),(20,30,A),(35,40,B)]`: the total duration is 25. -/
theorem collectPeriods_total_duration_witness :
    List.Chain' (fun a b : period => a.OnCallee = b.OnCallee → b.StartDate = a.EndDate)
        (records (rotationOf [⟨10, 20, recipientA⟩, ⟨20, 30, recipientA⟩, ⟨35, 40, recipientB⟩])) ∧
      ∃ out,
        collectPeriods (rotationOf [⟨10, 20, recipientA⟩, ⟨20, 30, recipientA⟩, ⟨35, 40, recipientB⟩])
          = some out ∧
        totalDuration out = totalDuration
          (records (rotationOf [⟨10, 20, recipientA⟩, ⟨20, 30, recipientA⟩, ⟨35, 40, recipientB⟩])) :=
  ⟨by simp [records, rotationOf, current, recipientA, recipientB],
    collectPeriods_total_duration
      (rotationOf [⟨10, 20, recipientA⟩, ⟨20, 30, recipientA⟩, ⟨35, 40, recipientB⟩])
      (by simp [records, rotationOf, current, recipientA, recipientB])⟩

/-- C10: for every `scheduleInterval` whose value is a non-negative `int` and
whose unit is `days`, `weeks` or `months`, `Set` called with the result of
`String` on any receiver returns no error and leaves the receiver with that
value and that unit. -/
theorem scheduleInterval_String_Set (s recv : scheduleInterval)
    (hnonneg : 0 ≤ s.value) (hint : isGoInt s.value)
    (hunit : s.unit ∈ ["days", "weeks", "months"]) :
    recv.Set s.String = .ok { unit := s.unit, value := s.value } := by
  obtain ⟨hne, hds, hval⟩ := toDigits_spec s.value.natAbs
  obtain ⟨hm, hu⟩ := matchUnit_unit s.unit hunit
  have hfmt : formatInt s.value = Nat.toDigits 10 s.value.natAbs := by
    simp [formatInt, not_lt.2 hnonneg]
  have hfind := FindStringSubmatch_digits_unit _ _ hne hds hu hm
  have hrange : digitsValue (Nat.toDigits 10 s.value.natAbs) < 2 ^ 63 := by
    rw [hval]
    have := hint.2
    omega
  have hatoi := Atoi_digits _ hne hds hrange
  rw [hval] at hatoi
  have habs : ((s.value.natAbs : Nat) : Int) = s.value := Int.natAbs_of_nonneg hnonneg
  simp only [scheduleInterval.Set, scheduleInterval.String, hfmt, hfind, List.length_cons,
    List.length_nil, ne_eq, not_true_eq_false, if_false, List.getD_cons_succ, List.getD_cons_zero,
    hatoi, habs]

/-- C10 on the default interval of 14 days. -/
theorem scheduleInterval_String_Set_witness :
    ((0 : Int) ≤ scheduleTimelineInterval.value ∧ isGoInt scheduleTimelineInterval.value ∧
      scheduleTimelineInterval.unit ∈ ["days", "weeks", "months"]) ∧
      scheduleInterval.Set { unit := "weeks", value := 3 } scheduleTimelineInterval.String
        = .ok { unit := "days", value := 14 } :=
  ⟨⟨by decide, by unfold isGoInt; decide, by decide⟩,
    scheduleInterval_String_Set scheduleTimelineInterval { unit := "weeks", value := 3 }
      (by decide) (by unfold isGoInt; decide) (by decide)⟩

end Cmd
